import Mathlib

set_option maxRecDepth 8000

/-!
Shallow embedding of the `anyways` diagnostic rendering pipeline, translated
from the repository sources `align.rs`, `formatter.rs`, `processor.rs`,
`processor/entry.rs` and `audit.rs`.  Rust strings are modelled as lists of
characters; the byte-level facts needed for `String::split_at` are recovered
through `Char.utf8Size`.
-/

abbrev Str := List Char

/-! ## formatter.rs : `get_length`

The source scans the characters of the string keeping a `wait_m` flag: an
escape byte switches the flag on, every character is then skipped until the
literal letter m switches it off; all other characters count one each. -/

/-- One transition of the `wait_m` flag of `get_length` (formatter.rs). -/
def escNext (b : Bool) (c : Char) : Bool :=
  if b then decide (c ≠ 'm') else decide (c = '\x1b')

/-- Visible width contributed by one character when the `wait_m` flag is `b`. -/
def charVis (b : Bool) (c : Char) : Nat :=
  if b then 0 else if c = '\x1b' then 0 else 1

def getLengthAux : Bool → Str → Nat
  | _, [] => 0
  | b, c :: t => charVis b c + getLengthAux (escNext b c) t

/-- `get_length` (formatter.rs): character count of a string, treating any
substring from an escape byte through the next literal letter m as width 0. -/
def get_length (s : Str) : Nat := getLengthAux false s

/-- The `wait_m` flag left behind after scanning `s` from flag `b`. -/
def escState : Bool → Str → Bool
  | b, [] => b
  | b, c :: t => escState (escNext b c) t

theorem getLengthAux_append (xs : Str) (b : Bool) (ys : Str) :
    getLengthAux b (xs ++ ys) = getLengthAux b xs + getLengthAux (escState b xs) ys := by
  induction xs generalizing b with
  | nil => simp [getLengthAux, escState]
  | cons c t ih => simp [getLengthAux, escState, ih, Nat.add_assoc]

theorem escState_append (xs : Str) (b : Bool) (ys : Str) :
    escState b (xs ++ ys) = escState (escState b xs) ys := by
  induction xs generalizing b with
  | nil => simp [escState]
  | cons c t ih => simp [escState, ih]

theorem getLengthAux_no_esc (s : Str) (h : ∀ c ∈ s, c ≠ '\x1b') :
    getLengthAux false s = s.length := by
  induction s with
  | nil => simp [getLengthAux]
  | cons c t ih =>
      have hc : c ≠ '\x1b' := h c (by simp)
      have ht : ∀ x ∈ t, x ≠ '\x1b' := fun x hx => h x (by simp [hx])
      simp [getLengthAux, charVis, escNext, hc, ih ht, Nat.add_comm]

theorem escState_no_esc (s : Str) (h : ∀ c ∈ s, c ≠ '\x1b') :
    escState false s = false := by
  induction s with
  | nil => simp [escState]
  | cons c t ih =>
      have hc : c ≠ '\x1b' := h c (by simp)
      have ht : ∀ x ∈ t, x ≠ '\x1b' := fun x hx => h x (by simp [hx])
      simp [escState, escNext, hc, ih ht]

theorem getLengthAux_replicate (n : Nat) (c : Char) (hc : c ≠ '\x1b') :
    getLengthAux false (List.replicate n c) = n := by
  have : ∀ x ∈ List.replicate n c, x ≠ '\x1b' := by
    intro x hx
    rw [List.eq_of_mem_replicate hx]
    exact hc
  simp [getLengthAux_no_esc _ this]

theorem escState_replicate (n : Nat) (c : Char) (hc : c ≠ '\x1b') :
    escState false (List.replicate n c) = false := by
  apply escState_no_esc
  intro x hx
  rw [List.eq_of_mem_replicate hx]
  exact hc

/-- The string from the spec example: red color code, hi, reset code. -/
def redHi : Str := "\x1b[31mhi\x1b[0m".toList

def hiStr : Str := "hi".toList

/-- Claim C9: for every string containing no escape byte, `get_length` equals
the character count, and the concrete string with red color codes around
the two visible characters hi measures 2. -/
theorem C9_get_length :
    (∀ s : Str, (∀ c ∈ s, c ≠ '\x1b') → get_length s = s.length) ∧
    get_length redHi = 2 := by
  constructor
  · intro s h
    exact getLengthAux_no_esc s h
  · decide

/-- Witness for C9 at the concrete escape-free string hi. -/
theorem C9_witness : get_length hiStr = hiStr.length :=
  C9_get_length.1 hiStr (by decide)

/-! ## align.rs : the alignment engine -/

-- Source name `Alignment`; renamed: that name is already taken by the library.
inductive PadAlignment
  | Left
  | Center
  | Right
deriving DecidableEq

structure PaddingEntry where
  text : Str
  width : Nat
  alignment : PadAlignment

/-- `pad_char.to_string().repeat(n)` from align.rs. -/
def padStr (c : Char) (n : Nat) : Str := List.replicate n c

/-- `padding.split_at(padding.len() / 2)` from align.rs.  The split index is
in bytes; every character of the padding is a copy of `c`, so the index lands
on a character boundary exactly when it is divisible by the UTF-8 size of
`c`.  `none` models the Rust panic on a non-boundary index. -/
def splitPad (c : Char) (n : Nat) : Option (Str × Str) :=
  let b := c.utf8Size
  let cut := n * b / 2
  if cut % b = 0 then
    some (List.replicate (cut / b) c, List.replicate (n - cut / b) c)
  else
    none

/-- One iteration of the entry loop of `align` (align.rs lines 27-55).  The
state is the pending `offset` debt together with the accumulated line.
`offset.clamp(0, padding_size)` on an unsigned integer is
`min offset padding_size`. -/
def alignStep (pad_char : Char) : Nat × Str → PaddingEntry → Option (Nat × Str)
  | (offset, line), e =>
    let length := get_length e.text
    if e.width < length then
      some (offset + (length - e.width), line ++ e.text)
    else
      let padding_size := e.width - length
      let offset_amount := min offset padding_size
      let offset2 := offset - offset_amount
      let ps := padding_size - offset_amount
      match e.alignment with
      | PadAlignment.Left => some (offset2, line ++ e.text ++ padStr pad_char ps)
      | PadAlignment.Center =>
          match splitPad pad_char ps with
          | some (l, r) => some (offset2, line ++ l ++ e.text ++ r)
          | none => none
      | PadAlignment.Right => some (offset2, line ++ padStr pad_char ps ++ e.text)

/-- The entry pass of `align`: fold `alignStep` over the entry list starting
from a zero debt and an empty line. -/
def buildLine (pad_char : Char) (entries : List PaddingEntry) : Option (Nat × Str) :=
  entries.foldlM (alignStep pad_char) (0, [])

/-- The character-accumulation loop of the hard wrap (align.rs lines 58-69):
push each character, flush the chunk whenever its visible length reaches
`max_width`, and flush a non-empty remainder at the end. -/
def hardWrapGo (max_width : Nat) : Str → Str → List Str
  | builder, [] => if builder.isEmpty then [] else [builder]
  | builder, ch :: rest =>
      let b := builder ++ [ch]
      if max_width ≤ get_length b then b :: hardWrapGo max_width [] rest
      else hardWrapGo max_width b rest

/-- The line-emission phase of `align` (align.rs lines 57-72): hard-wrap when
the visible length exceeds `max_width`, otherwise emit the line once. -/
def wrapLine (max_width : Nat) (line : Str) : List Str :=
  if max_width < get_length line then hardWrapGo max_width [] line
  else [line]

/-- `align` (align.rs): the output lines produced through the sink, in order.
The sink is modelled by collecting its arguments; `none` models the panic of
the byte-level `split_at` in the `Center` branch. -/
def align (entries : List PaddingEntry) (max_width : Nat) (pad_char : Char) :
    Option (List Str) :=
  match buildLine pad_char entries with
  | some (_, line) => some (wrapLine max_width line)
  | none => none

theorem charVis_le_one (b : Bool) (c : Char) : charVis b c ≤ 1 := by
  unfold charVis
  split
  · exact Nat.zero_le 1
  · split
    · exact Nat.zero_le 1
    · exact Nat.le_refl 1

theorem get_length_append_char (xs : Str) (c : Char) :
    get_length (xs ++ [c]) ≤ get_length xs + 1 := by
  rw [get_length, getLengthAux_append]
  have : getLengthAux (escState false xs) [c] ≤ 1 := by
    simpa [getLengthAux] using charVis_le_one (escState false xs) c
  exact Nat.add_le_add_left this _

theorem hardWrapGo_join (max_width : Nat) (rest : Str) :
    ∀ builder : Str, (hardWrapGo max_width builder rest).flatten = builder ++ rest := by
  induction rest with
  | nil =>
      intro builder
      by_cases h : builder.isEmpty
      · simp [hardWrapGo, h, List.isEmpty_iff.mp h]
      · simp [hardWrapGo, h]
  | cons ch rest ih =>
      intro builder
      by_cases h : max_width ≤ get_length (builder ++ [ch])
      · simp [hardWrapGo, h, ih]
      · simp [hardWrapGo, h, ih]

theorem hardWrapGo_bound (max_width : Nat) (hm : 1 ≤ max_width) (rest : Str) :
    ∀ builder : Str, get_length builder < max_width →
      ∀ chunk ∈ hardWrapGo max_width builder rest, get_length chunk ≤ max_width := by
  induction rest with
  | nil =>
      intro builder hb chunk hc
      by_cases h : builder.isEmpty
      · simp [hardWrapGo, h] at hc
      · simp [hardWrapGo, h] at hc
        exact hc ▸ Nat.le_of_lt hb
  | cons ch rest ih =>
      intro builder hb chunk hc
      have hle : get_length (builder ++ [ch]) ≤ max_width := by
        have := get_length_append_char builder ch
        omega
      by_cases h : max_width ≤ get_length (builder ++ [ch])
      · simp [hardWrapGo, h] at hc
        rcases hc with hc | hc
        · exact hc ▸ hle
        · have h0 : get_length ([] : Str) < max_width := by
            simpa [get_length, getLengthAux] using hm
          exact ih [] h0 chunk hc
      · simp [hardWrapGo, h] at hc
        have hlt : get_length (builder ++ [ch]) < max_width := by
          rcases Nat.lt_or_ge (get_length (builder ++ [ch])) max_width with h2 | h2
          · exact h2
          · exact absurd h2 h
        exact ih _ hlt chunk hc

/-- Claim C6 (amended with the bound `1 ≤ max_width`): the hard wrap emits
chunks of visible length at most `max_width`, the raw concatenation of the
chunks reconstructs the line exactly, and a line not exceeding `max_width`
is emitted once, unchanged. -/
theorem C6_amended (max_width : Nat) (line : Str) (hm : 1 ≤ max_width) :
    (∀ chunk ∈ wrapLine max_width line, get_length chunk ≤ max_width) ∧
    (wrapLine max_width line).flatten = line ∧
    (get_length line ≤ max_width → wrapLine max_width line = [line]) := by
  unfold wrapLine
  by_cases h : max_width < get_length line
  · refine ⟨?_, ?_, ?_⟩
    · intro chunk hc
      rw [if_pos h] at hc
      have h0 : get_length ([] : Str) < max_width := by
        simpa [get_length, getLengthAux] using hm
      exact hardWrapGo_bound max_width hm line [] h0 chunk hc
    · rw [if_pos h]
      simpa using hardWrapGo_join max_width line []
    · intro hle
      omega
  · refine ⟨?_, ?_, ?_⟩
    · intro chunk hc
      rw [if_neg h] at hc
      simp at hc
      subst hc
      omega
    · rw [if_neg h]
      simp
    · intro _
      rw [if_neg h]

def abStr : Str := "ab".toList

def aStr : Str := "a".toList

def bStr : Str := "b".toList

/-- Counterexample to claim C6 as stated: with `max_width = 0` the line ab
exceeds the width, but each emitted chunk has visible length 1 > 0. -/
theorem C6_counterexample :
    wrapLine 0 abStr = [aStr, bStr] ∧ 0 < get_length aStr := by
  constructor
  · decide
  · decide

/-- Witness for C6 at `max_width = 2` and the line ab. -/
theorem C6_witness :
    (∀ chunk ∈ wrapLine 2 abStr, get_length chunk ≤ 2) ∧
    (wrapLine 2 abStr).flatten = abStr ∧
    wrapLine 2 abStr = [abStr] :=
  ⟨(C6_amended 2 abStr (by decide)).1, (C6_amended 2 abStr (by decide)).2.1,
    (C6_amended 2 abStr (by decide)).2.2 (by decide)⟩

theorem splitPad_one (c : Char) (hc : c.utf8Size = 1) (n : Nat) :
    splitPad c n = some (List.replicate (n / 2) c, List.replicate (n - n / 2) c) := by
  simp [splitPad, hc, Nat.mod_one]

theorem alignStep_isSome (c : Char) (hc : c.utf8Size = 1) (st : Nat × Str)
    (e : PaddingEntry) : (alignStep c st e).isSome = true := by
  obtain ⟨offset, line⟩ := st
  unfold alignStep
  by_cases h : e.width < get_length e.text
  · simp [h]
  · cases ha : e.alignment <;> simp [h, ha, splitPad_one c hc]

theorem foldlM_alignStep_isSome (c : Char) (hc : c.utf8Size = 1) :
    ∀ (entries : List PaddingEntry) (st : Nat × Str),
      (List.foldlM (alignStep c) st entries).isSome = true := by
  intro entries
  induction entries with
  | nil => intro st; simp [List.foldlM]
  | cons e es ih =>
      intro st
      obtain ⟨st2, hst2⟩ := Option.isSome_iff_exists.mp (alignStep_isSome c hc st e)
      rw [List.foldlM_cons, hst2]
      simpa using ih st2

/-- Claim C10: for every entry list, every max width and every pad character
of UTF-8 size one, `align` returns normally: the byte-level split of the
padding in the `Center` branch always lands on a character boundary. -/
theorem C10_align_total (entries : List PaddingEntry) (max_width : Nat)
    (pad_char : Char) (hc : pad_char.utf8Size = 1) :
    (align entries max_width pad_char).isSome = true := by
  unfold align buildLine
  obtain ⟨st, hst⟩ := Option.isSome_iff_exists.mp
    (foldlM_alignStep_isSome pad_char hc entries (0, []))
  obtain ⟨o, l⟩ := st
  rw [hst]
  rfl

def pe10 : PaddingEntry := ⟨ hiStr, 5, PadAlignment.Center ⟩

/-- Witness for C10 at a concrete centered entry padded with spaces. -/
theorem C10_witness : (align [pe10] 7 ' ').isSome = true :=
  C10_align_total [pe10] 7 ' ' (by decide)

/-! ## Claim C7: the entry pass of the alignment engine -/

def sumWidths (entries : List PaddingEntry) : Nat :=
  entries.foldr (fun e n => e.width + n) 0

theorem get_length_append_balanced (xs ys : Str) (h : escState false xs = false) :
    get_length (xs ++ ys) = get_length xs + get_length ys := by
  rw [get_length, getLengthAux_append, h]
  rfl

theorem escState_append_balanced (xs ys : Str) (h : escState false xs = false) :
    escState false (xs ++ ys) = escState false ys := by
  rw [escState_append, h]

theorem get_length_replicate (n : Nat) (c : Char) (hc : c ≠ '\x1b') :
    get_length (List.replicate n c) = n :=
  getLengthAux_replicate n c hc

theorem escState_replicate_false (n : Nat) (c : Char) (hc : c ≠ '\x1b') :
    escState false (List.replicate n c) = false :=
  escState_replicate n c hc

theorem alignStep_no_overflow (c : Char) (hc1 : c ≠ '\x1b') (hc2 : c.utf8Size = 1)
    (line : Str) (e : PaddingEntry) (hlen : get_length e.text ≤ e.width)
    (hbal : escState false e.text = false) (hline : escState false line = false) :
    ∃ mid : Str, alignStep c (0, line) e = some (0, mid) ∧
      get_length mid = get_length line + e.width ∧ escState false mid = false := by
  have hnot : ¬ e.width < get_length e.text := Nat.not_lt.mpr hlen
  have hps : min 0 (e.width - get_length e.text) = 0 := Nat.zero_min _
  have hes_text : escState false (line ++ e.text) = false := by
    rw [escState_append_balanced line e.text hline, hbal]
  cases ha : e.alignment with
  | Left =>
      refine ⟨(line ++ e.text) ++ List.replicate (e.width - get_length e.text) c, ?_, ?_, ?_⟩
      · simp [alignStep, hnot, ha, hps, padStr]
      · rw [get_length_append_balanced _ _ hes_text,
          get_length_append_balanced _ _ hline,
          get_length_replicate _ _ hc1]
        omega
      · rw [escState_append_balanced _ _ hes_text]
        exact escState_replicate_false _ _ hc1
  | Center =>
      have hsplit := splitPad_one c hc2 (e.width - get_length e.text)
      have h1 : escState false (line ++ List.replicate ((e.width - get_length e.text) / 2) c)
          = false := by
        rw [escState_append_balanced _ _ hline]
        exact escState_replicate_false _ _ hc1
      have h2 : escState false
          ((line ++ List.replicate ((e.width - get_length e.text) / 2) c) ++ e.text)
          = false := by
        rw [escState_append_balanced _ _ h1, hbal]
      refine ⟨((line ++ List.replicate ((e.width - get_length e.text) / 2) c) ++ e.text) ++
          List.replicate ((e.width - get_length e.text) - (e.width - get_length e.text) / 2) c,
          ?_, ?_, ?_⟩
      · simp [alignStep, hnot, ha, hps, hsplit]
      · rw [get_length_append_balanced _ _ h2, get_length_append_balanced _ _ h1,
          get_length_append_balanced _ _ hline,
          get_length_replicate _ _ hc1, get_length_replicate _ _ hc1]
        have : (e.width - get_length e.text) / 2 ≤ e.width - get_length e.text :=
          Nat.div_le_self _ _
        omega
      · rw [escState_append_balanced _ _ h2]
        exact escState_replicate_false _ _ hc1
  | Right =>
      have h1 : escState false (line ++ List.replicate (e.width - get_length e.text) c)
          = false := by
        rw [escState_append_balanced _ _ hline]
        exact escState_replicate_false _ _ hc1
      refine ⟨(line ++ List.replicate (e.width - get_length e.text) c) ++ e.text, ?_, ?_, ?_⟩
      · simp [alignStep, hnot, ha, hps, padStr]
      · rw [get_length_append_balanced _ _ h1,
          get_length_append_balanced _ _ hline,
          get_length_replicate _ _ hc1]
        omega
      · rw [escState_append_balanced _ _ h1, hbal]

theorem buildLine_no_overflow (c : Char) (hc1 : c ≠ '\x1b') (hc2 : c.utf8Size = 1) :
    ∀ (entries : List PaddingEntry) (line : Str),
      (∀ e ∈ entries, get_length e.text ≤ e.width ∧ escState false e.text = false) →
      escState false line = false →
      ∃ line2 : Str,
        List.foldlM (alignStep c) (0, line) entries = some (0, line2) ∧
        get_length line2 = get_length line + sumWidths entries ∧
        escState false line2 = false := by
  intro entries
  induction entries with
  | nil =>
      intro line _ hline
      exact ⟨line, by simp [List.foldlM], by simp [sumWidths], hline⟩
  | cons e es ih =>
      intro line hes hline
      have he := hes e (by simp)
      obtain ⟨mid, h1, h2, h3⟩ :=
        alignStep_no_overflow c hc1 hc2 line e he.1 he.2 hline
      obtain ⟨line2, g1, g2, g3⟩ := ih mid (fun x hx => hes x (by simp [hx])) h3
      refine ⟨line2, ?_, ?_, g3⟩
      · rw [List.foldlM_cons, h1]
        simpa using g1
      · rw [g2, h2]
        simp only [sumWidths, List.foldr]
        omega

/-- Claim C7 (amended: the width-sum identity additionally needs every entry
text to close its escape sequences and a visible single-byte pad character):
with no overflowing entry the built line's visible length is the sum of the
target widths, and on every entry the debt paid is the minimum of the current
offset and the available padding, so the emitted padding is the available
padding minus that minimum and never goes below zero. -/
theorem C7_amended :
    (∀ (pad_char : Char) (entries : List PaddingEntry),
        pad_char ≠ '\x1b' → pad_char.utf8Size = 1 →
        (∀ e ∈ entries, get_length e.text ≤ e.width ∧ escState false e.text = false) →
        ∃ line : Str, buildLine pad_char entries = some (0, line) ∧
          get_length line = sumWidths entries) ∧
    (∀ (pad_char : Char) (offset : Nat) (line : Str) (e : PaddingEntry),
        pad_char.utf8Size = 1 → get_length e.text ≤ e.width →
        ∃ line2 : Str,
          alignStep pad_char (offset, line) e =
            some (offset - min offset (e.width - get_length e.text), line2) ∧
          line2.length = line.length + e.text.length +
            ((e.width - get_length e.text) - min offset (e.width - get_length e.text))) := by
  constructor
  · intro pad_char entries h1 h2 h3
    obtain ⟨line2, g1, g2, _⟩ :=
      buildLine_no_overflow pad_char h1 h2 entries [] h3 rfl
    exact ⟨line2, g1, by simpa [get_length, getLengthAux] using g2⟩
  · intro pad_char offset line e hc hlen
    have hnot : ¬ e.width < get_length e.text := Nat.not_lt.mpr hlen
    cases ha : e.alignment with
    | Left =>
        refine ⟨(line ++ e.text) ++
          List.replicate ((e.width - get_length e.text) -
            min offset (e.width - get_length e.text)) pad_char, ?_, ?_⟩
        · simp [alignStep, hnot, ha, padStr]
        · simp [List.length_append, List.length_replicate]
          omega
    | Center =>
        have hsplit := splitPad_one pad_char hc
          ((e.width - get_length e.text) - min offset (e.width - get_length e.text))
        refine ⟨((line ++
            List.replicate (((e.width - get_length e.text) -
              min offset (e.width - get_length e.text)) / 2) pad_char) ++ e.text) ++
            List.replicate (((e.width - get_length e.text) -
              min offset (e.width - get_length e.text)) -
              ((e.width - get_length e.text) -
                min offset (e.width - get_length e.text)) / 2) pad_char, ?_, ?_⟩
        · simp [alignStep, hnot, ha, hsplit]
        · simp [List.length_append, List.length_replicate]
          have : ((e.width - get_length e.text) -
              min offset (e.width - get_length e.text)) / 2 ≤
              (e.width - get_length e.text) - min offset (e.width - get_length e.text) :=
            Nat.div_le_self _ _
          omega
    | Right =>
        refine ⟨(line ++
          List.replicate ((e.width - get_length e.text) -
            min offset (e.width - get_length e.text)) pad_char) ++ e.text, ?_, ?_⟩
        · simp [alignStep, hnot, ha, padStr]
        · simp [List.length_append, List.length_replicate]
          omega

def escOnly : Str := "\x1b".toList

def cx7e : PaddingEntry := ⟨ escOnly, 1, PadAlignment.Left ⟩

/-- Counterexample to claim C7 as stated: one entry whose text is a lone
escape byte (visible length 0, within its target width 1) yields a line of
visible length 0, not the width sum 1 — the escape byte swallows the padding. -/
theorem C7_counterexample :
    buildLine ' ' [cx7e] = some (0, escOnly ++ [' ']) ∧
    get_length (escOnly ++ [' ']) = 0 ∧
    sumWidths [cx7e] = 1 := by
  refine ⟨by decide, by decide, by decide⟩

def w7e : PaddingEntry := ⟨ hiStr, 3, PadAlignment.Left ⟩

/-- Witness for C7 at a concrete entry list and at a concrete debt. -/
theorem C7_witness :
    (∃ line : Str, buildLine ' ' [w7e] = some (0, line) ∧
      get_length line = sumWidths [w7e]) ∧
    (∃ line2 : Str, alignStep ' ' (5, []) w7e =
        some (5 - min 5 (w7e.width - get_length w7e.text), line2) ∧
      line2.length = ([] : Str).length + w7e.text.length +
        ((w7e.width - get_length w7e.text) - min 5 (w7e.width - get_length w7e.text))) :=
  ⟨C7_amended.1 ' ' [w7e] (by decide) (by decide) (by decide),
    C7_amended.2 ' ' 5 [] w7e (by decide) (by decide)⟩

/-! ## Rust string primitives used by processor/entry.rs

`str::split_once`, `str::rsplit_once`, `str::contains`, `str::replace`,
`str::replacen(.., 1)` and `str::split`, for literal patterns, modelled on
character lists.  Every call site in the sources passes a non-empty literal
pattern, so Rust's empty-pattern corner cases are irrelevant here. -/

/-- `str::split_once`: split around the first occurrence of `sep`. -/
def splitOnce (sep : Str) : Str → Option (Str × Str)
  | [] => if sep.isPrefixOf [] then some ([], []) else none
  | c :: t =>
      if sep.isPrefixOf (c :: t) then some ([], (c :: t).drop sep.length)
      else (splitOnce sep t).map (fun p => (c :: p.1, p.2))

/-- `str::rsplit_once`: split around the last occurrence of `sep`. -/
def rsplitOnce (sep : Str) : Str → Option (Str × Str)
  | [] => if sep.isPrefixOf [] then some ([], []) else none
  | c :: t =>
      match rsplitOnce sep t with
      | some p => some (c :: p.1, p.2)
      | none =>
          if sep.isPrefixOf (c :: t) then some ([], (c :: t).drop sep.length)
          else none

/-- `str::contains` for a literal pattern. -/
def containsSub (pat : Str) : Str → Bool
  | [] => pat.isPrefixOf []
  | c :: t => pat.isPrefixOf (c :: t) || containsSub pat t

/-- Worker for `str::replace`: a positive `skip` counts characters belonging
to an already-replaced occurrence, which are dropped. -/
def replaceAllGo (pat tov : Str) : Str → Nat → Str
  | [], _ => []
  | _ :: t, Nat.succ k => replaceAllGo pat tov t k
  | c :: t, 0 =>
      if pat ≠ [] ∧ pat.isPrefixOf (c :: t) then
        tov ++ replaceAllGo pat tov t (pat.length - 1)
      else
        c :: replaceAllGo pat tov t 0

/-- `str::replace`: replace every non-overlapping occurrence, left to right. -/
def replaceAll (pat tov s : Str) : Str := replaceAllGo pat tov s 0

/-- `str::replacen(pat, to, 1)`: replace only the first occurrence. -/
def replaceFirst (pat tov : Str) : Str → Str
  | [] => if pat.isPrefixOf [] then tov else []
  | c :: t =>
      if pat.isPrefixOf (c :: t) then tov ++ (c :: t).drop pat.length
      else c :: replaceFirst pat tov t

/-- Worker for `str::split` over a literal pattern; a positive `skip` counts
separator characters still to be consumed. -/
def splitSepGo (sep : Str) : Str → Nat → List Str
  | [], _ => [[]]
  | _ :: t, Nat.succ k => splitSepGo sep t k
  | c :: t, 0 =>
      if sep ≠ [] ∧ sep.isPrefixOf (c :: t) then
        [] :: splitSepGo sep t (sep.length - 1)
      else
        match splitSepGo sep t 0 with
        | [] => [[c]]
        | s :: rest => (c :: s) :: rest

/-- `str::split` over a literal non-empty pattern: the list of segments. -/
def splitSep (sep s : Str) : List Str := splitSepGo sep s 0

def sepStr : Str := "::".toList

def asStr : Str := " as ".toList

/-! ## processor/entry.rs : parsed values, matchers, rewriting -/

/-- `ProcessingValue` (processor/entry.rs).  The source field `from` of the
`Cast` variant is a Lean keyword and is called `fromv` here. -/
inductive ProcessingValue
  | Entry (module : Option Str) (value : Str)
  | Cast (from_module : Option Str) (fromv : Str) (module : Option Str) (value : Str)
  | Unknown
deriving DecidableEq

inductive ProcessingValueMatcher
  | Value (t : Str)
  | Module (t : Str)
  | Item (t : Str)
  | Path (t : Str)
deriving DecidableEq

/-- `ProcessingValue::matches` (processor/entry.rs lines 95-136). -/
def ProcessingValue.matches (v : ProcessingValue) (m : ProcessingValueMatcher) : Bool :=
  match m with
  | ProcessingValueMatcher.Value target =>
      match v with
      | ProcessingValue.Entry _ value => decide (value = target)
      | ProcessingValue.Cast _ _ _ value => decide (value = target)
      | ProcessingValue.Unknown => false
  | ProcessingValueMatcher.Module target =>
      match v with
      | ProcessingValue.Entry md _ =>
          match md with
          | some m0 => decide (m0 = target)
          | none => false
      | ProcessingValue.Cast _ _ md _ =>
          match md with
          | some m0 => decide (m0 = target)
          | none => false
      | ProcessingValue.Unknown => false
  | ProcessingValueMatcher.Item target =>
      match v with
      | ProcessingValue.Entry _ value => target.isPrefixOf value
      | ProcessingValue.Cast _ _ _ value => target.isPrefixOf value
      | ProcessingValue.Unknown => false
  | ProcessingValueMatcher.Path target =>
      match v with
      | ProcessingValue.Entry _ value =>
          (splitSep sepStr value).any (fun seg => decide (seg = target))
      | ProcessingValue.Cast _ _ _ value =>
          (splitSep sepStr value).any (fun seg => decide (seg = target))
      | ProcessingValue.Unknown => false

/-- `ProcessingValue::replace` (processor/entry.rs lines 138-194). -/
def ProcessingValue.replace (v : ProcessingValue) (m : ProcessingValueMatcher) (tov : Str) :
    ProcessingValue :=
  match m with
  | ProcessingValueMatcher.Value f =>
      match v with
      | ProcessingValue.Entry md value => ProcessingValue.Entry md (replaceAll f tov value)
      | ProcessingValue.Cast fm fv md value =>
          ProcessingValue.Cast fm fv md (replaceAll f tov value)
      | ProcessingValue.Unknown => ProcessingValue.Unknown
  | ProcessingValueMatcher.Module f =>
      match v with
      | ProcessingValue.Entry md value =>
          ProcessingValue.Entry (md.map (replaceAll f tov)) value
      | ProcessingValue.Cast fm fv md value =>
          ProcessingValue.Cast (fm.map (replaceAll f tov)) fv (md.map (replaceAll f tov)) value
      | ProcessingValue.Unknown => ProcessingValue.Unknown
  | ProcessingValueMatcher.Item pat =>
      match v with
      | ProcessingValue.Cast fm fv md value =>
          ProcessingValue.Cast fm
            (if pat.isPrefixOf fv then replaceFirst pat tov fv else fv) md
            (if pat.isPrefixOf value then replaceFirst pat tov value else value)
      | ProcessingValue.Entry md value =>
          ProcessingValue.Entry md
            (if pat.isPrefixOf value then replaceFirst pat tov value else value)
      | ProcessingValue.Unknown => ProcessingValue.Unknown
  | ProcessingValueMatcher.Path f =>
      match v with
      | ProcessingValue.Entry md value =>
          ProcessingValue.Entry md
            (List.intercalate sepStr ((splitSep sepStr value).map (replaceAll f tov)))
      | ProcessingValue.Cast fm fv md value =>
          ProcessingValue.Cast fm fv md
            (List.intercalate sepStr ((splitSep sepStr value).map (replaceAll f tov)))
      | ProcessingValue.Unknown => ProcessingValue.Unknown

/-- `ProcessingEntry::strip_hash` (processor/entry.rs lines 222-228). -/
def strip_hash (value : Str) : Str :=
  match rsplitOnce sepStr value with
  | some p => p.1
  | none => value

/-- One iteration of the bracket-depth scanner of `acquire_value`
(processor/entry.rs lines 237-260); the state is
(depth, outside, statement, rest). -/
def castScanStep : Int × Bool × Str × Str → Char → Int × Bool × Str × Str
  | (depth, outside, statement, rest), ch =>
    if outside then (depth, outside, statement, rest ++ [ch])
    else if ch = '<' then
      (if depth + 1 = 1 then (depth + 1, false, statement, rest)
       else (depth + 1, false, statement ++ [ch], rest))
    else if ch = '>' then
      (if depth - 1 = 0 then (depth - 1, true, statement, rest)
       else (depth - 1, false, statement ++ [ch], rest))
    else (depth, outside, statement ++ [ch], rest)

/-- `ProcessingEntry::acquire_value` (processor/entry.rs lines 230-299). -/
def acquire_value (value : Str) : ProcessingValue :=
  if value.head? = some '<' then
    let st := value.foldl castScanStep (0, false, [], [])
    let statement := st.2.2.1
    let rest := st.2.2.2
    match splitOnce asStr statement with
    | some (from_item, to_item) =>
        let fromp :=
          match splitOnce sepStr from_item with
          | some p => (some p.1, p.2)
          | none => (none, from_item)
        let top :=
          match splitOnce sepStr to_item with
          | some p => (some p.1, p.2)
          | none => (none, to_item)
        ProcessingValue.Cast fromp.1 fromp.2 top.1 (top.2 ++ rest)
    | none => ProcessingValue.Unknown
  else
    match splitOnce sepStr value with
    | some p => ProcessingValue.Entry (some p.1) p.2
    | none => ProcessingValue.Entry none value

/-! ## Claim C4: parsing the cast expression -/

theorem foldl_castScanStep_outside (l : Str) :
    ∀ (d : Int) (s r : Str), l.foldl castScanStep (d, true, s, r) = (d, true, s, r ++ l) := by
  induction l with
  | nil => intro d s r; simp
  | cons c t ih =>
      intro d s r
      rw [List.foldl_cons]
      have hstep : castScanStep (d, true, s, r) c = (d, true, s, r ++ [c]) := by
        simp [castScanStep]
      rw [hstep, ih]
      simp

def castPre : Str := "<A::b as C::d>".toList

def castPreTail : Str := "A::b as C::d>".toList

def castFull : Str := "<A::b as C::d>::e".toList

def stmtStr : Str := "A::b as C::d".toList

def fromItemStr : Str := "A::b".toList

def toItemStr : Str := "C::d".toList

def amod : Str := "A".toList

def bval : Str := "b".toList

def cmod : Str := "C".toList

def dval : Str := "d".toList

def deval : Str := "d::e".toList

theorem acquire_value_castPre (rest : Str) :
    acquire_value (castPre ++ rest) =
      ProcessingValue.Cast (some amod) bval (some cmod) (dval ++ rest) := by
  have hpre : castPre = '<' :: castPreTail := by decide
  have hhead : (castPre ++ rest).head? = some '<' := by rw [hpre]; rfl
  have h1 : castPre.foldl castScanStep ((0 : Int), false, ([] : Str), ([] : Str)) =
      (0, true, stmtStr, []) := by decide
  have hfold : (castPre ++ rest).foldl castScanStep ((0 : Int), false, ([] : Str), ([] : Str)) =
      (0, true, stmtStr, rest) := by
    rw [List.foldl_append, h1, foldl_castScanStep_outside]
    simp
  have h2 : splitOnce asStr stmtStr = some (fromItemStr, toItemStr) := by decide
  have h3 : splitOnce sepStr fromItemStr = some (amod, bval) := by decide
  have h4 : splitOnce sepStr toItemStr = some (cmod, dval) := by decide
  unfold acquire_value
  rw [if_pos hhead, hfold]
  simp [h2, h3, h4]

/-- Claim C4: the scanner parses the cast expression, splitting the inner
text on the as separator and each side at its first double colon, and the
text after the closing angle bracket is appended verbatim to the value. -/
theorem C4_cast_parse :
    acquire_value castFull = ProcessingValue.Cast (some amod) bval (some cmod) deval ∧
    (∀ rest : Str, acquire_value (castPre ++ rest) =
      ProcessingValue.Cast (some amod) bval (some cmod) (dval ++ rest)) := by
  constructor
  · decide
  · exact acquire_value_castPre

/-! ## Claim C8: the hash strip -/

theorem containsSub_of_prefix (sep s : Str) (h : sep.isPrefixOf s = true) :
    containsSub sep s = true := by
  cases s with
  | nil => simp [containsSub, h]
  | cons c t => simp [containsSub, h]

theorem containsSub_of_decomp (sep : Str) :
    ∀ p q s : Str, s = p ++ sep ++ q → containsSub sep s = true := by
  intro p
  induction p with
  | nil =>
      intro q s hs
      have hp : sep.isPrefixOf s = true := by
        rw [List.isPrefixOf_iff_prefix, hs]
        simp [List.prefix_append]
      exact containsSub_of_prefix sep s hp
  | cons c p ih =>
      intro q s hs
      subst hs
      have hsub : containsSub sep (p ++ sep ++ q) = true := ih q _ rfl
      rw [show (c :: p) ++ sep ++ q = c :: (p ++ sep ++ q) by simp]
      unfold containsSub
      rw [hsub]
      simp

theorem rsplit_none_iff (sep : Str) :
    ∀ s : Str, rsplitOnce sep s = none ↔ containsSub sep s = false := by
  intro s
  induction s with
  | nil =>
      unfold rsplitOnce containsSub
      cases h : sep.isPrefixOf ([] : Str) <;> simp [h]
  | cons c t ih =>
      unfold rsplitOnce containsSub
      cases hr : rsplitOnce sep t with
      | some p =>
          have hct : containsSub sep t = true := by
            rcases hcs : containsSub sep t with hf | ht
            · exact absurd (ih.mpr hcs) (by simp [hr])
            · rfl
          simp [hct]
      | none =>
          have hct : containsSub sep t = false := ih.mp hr
          cases hp : sep.isPrefixOf (c :: t) <;> simp [hp, hct]

theorem rsplit_some_spec (sep : Str) :
    ∀ s a b : Str, rsplitOnce sep s = some (a, b) →
      s = a ++ sep ++ b ∧ ∀ p q : Str, s = p ++ sep ++ q → b.length ≤ q.length := by
  intro s
  induction s with
  | nil =>
      intro a b h
      unfold rsplitOnce at h
      by_cases hp : sep.isPrefixOf ([] : Str)
      · rw [if_pos hp] at h
        have hsep : sep = [] := by
          have := List.isPrefixOf_iff_prefix.mp hp
          simpa using this
        injection h with h2
        injection h2 with h3 h4
        subst h3
        subst h4
        subst hsep
        exact ⟨rfl, fun p q _ => Nat.zero_le _⟩
      · rw [if_neg hp] at h
        exact absurd h (by simp)
  | cons c t ih =>
      intro a b h
      unfold rsplitOnce at h
      cases hr : rsplitOnce sep t with
      | some p =>
          rw [hr] at h
          injection h with h2
          injection h2 with h3 h4
          obtain ⟨g1, g2⟩ := ih p.1 p.2 (by rw [hr])
          subst h3
          subst h4
          constructor
          · rw [g1]
            simp
          · intro p2 q2 hpq
            cases p2 with
            | nil =>
                have hl1 := congrArg List.length hpq
                have hl2 := congrArg List.length g1
                simp [List.length_append] at hl1 hl2
                omega
            | cons d p2t =>
                simp only [List.cons_append] at hpq
                injection hpq with _ hpq2
                exact g2 p2t q2 hpq2
      | none =>
          rw [hr] at h
          by_cases hp : sep.isPrefixOf (c :: t)
          · rw [if_pos hp] at h
            obtain ⟨u, hu⟩ := List.isPrefixOf_iff_prefix.mp hp
            injection h with h2
            injection h2 with h3 h4
            subst h3
            subst h4
            have hb : (c :: t).drop sep.length = u := by
              rw [← hu, List.drop_left]
            constructor
            · rw [hb, ← hu]
              simp
            · intro p2 q2 hpq
              cases p2 with
              | nil =>
                  simp only [List.nil_append] at hpq
                  have hq : u = q2 := List.append_cancel_left (hu.trans hpq)
                  rw [hb, hq]
              | cons d p2t =>
                  simp only [List.cons_append] at hpq
                  injection hpq with _ hpq2
                  have hct : containsSub sep t = true :=
                    containsSub_of_decomp sep p2t q2 t hpq2
                  have hcf : containsSub sep t = false := (rsplit_none_iff sep t).mp hr
                  rw [hcf] at hct
                  exact absurd hct (by simp)
          · rw [if_neg hp] at h
            exact absurd h (by simp)

def hashedName : Str := "mod::sub::func::<hash>".toList

def modStr : Str := "mod".toList

def subFuncStr : Str := "sub::func".toList

/-- Claim C8: the hash strip leaves a string without a double colon
unchanged; otherwise it returns the prefix before the last double colon
occurrence (the discarded suffix is the shortest possible one); and parsing
the stripped example name yields the Plain value split at the first double
colon. -/
theorem C8_strip_hash :
    (∀ s : Str, containsSub sepStr s = false → strip_hash s = s) ∧
    (∀ s : Str, containsSub sepStr s = true →
      ∃ q : Str, s = strip_hash s ++ sepStr ++ q ∧
        ∀ p2 q2 : Str, s = p2 ++ sepStr ++ q2 → q.length ≤ q2.length) ∧
    acquire_value (strip_hash hashedName) =
      ProcessingValue.Entry (some modStr) subFuncStr := by
  refine ⟨?_, ?_, by decide⟩
  · intro s h
    unfold strip_hash
    rw [(rsplit_none_iff sepStr s).mpr h]
  · intro s h
    cases hr : rsplitOnce sepStr s with
    | none =>
        rw [(rsplit_none_iff sepStr s).mp hr] at h
        exact absurd h (by simp)
    | some p =>
        obtain ⟨g1, g2⟩ := rsplit_some_spec sepStr s p.1 p.2 (by rw [hr])
        refine ⟨p.2, ?_, g2⟩
        unfold strip_hash
        rw [hr]
        exact g1

/-- Witness for C8 at a string without separator and at the hashed name. -/
theorem C8_witness :
    strip_hash abStr = abStr ∧
    (∃ q : Str, hashedName = strip_hash hashedName ++ sepStr ++ q ∧
      ∀ p2 q2 : Str, hashedName = p2 ++ sepStr ++ q2 → q.length ≤ q2.length) :=
  ⟨C8_strip_hash.1 abStr (by decide), C8_strip_hash.2.1 hashedName (by decide)⟩

/-! ## Claim C1: replace semantics of the PathPrefix and PathSegment matchers -/

theorem replaceFirst_of_prefix (pat tov v : Str) (h : pat.isPrefixOf v = true) :
    replaceFirst pat tov v = tov ++ v.drop pat.length := by
  cases v with
  | nil =>
      have hsep : pat = [] := by
        have := List.isPrefixOf_iff_prefix.mp h
        simpa using this
      subst hsep
      simp [replaceFirst]
  | cons c t =>
      unfold replaceFirst
      rw [if_pos h]

theorem replaceAll_not_contains (pat tov : Str) :
    ∀ s : Str, containsSub pat s = false → replaceAll pat tov s = s := by
  intro s
  induction s with
  | nil => intro _; rfl
  | cons c t ih =>
      intro h
      unfold containsSub at h
      simp only [Bool.or_eq_false_iff] at h
      unfold replaceAll replaceAllGo
      rw [if_neg (fun hc => by rw [h.1] at hc; exact absurd hc.2 (by simp))]
      have := ih h.2
      unfold replaceAll at this
      rw [this]

theorem intercalate_cons_of_ne_nil (sep x : Str) (l : List Str) (h : l ≠ []) :
    List.intercalate sep (x :: l) = x ++ sep ++ List.intercalate sep l := by
  cases l with
  | nil => exact absurd rfl h
  | cons y l2 =>
      simp [List.intercalate, List.intersperse_cons_cons]

theorem intercalate_cons_head (sep : Str) (c : Char) (x : Str) (l : List Str) :
    List.intercalate sep ((c :: x) :: l) = c :: List.intercalate sep (x :: l) := by
  cases l with
  | nil => simp [List.intercalate]
  | cons y l2 =>
      simp [List.intercalate, List.intersperse_cons_cons]

theorem splitSepGo_ne_nil (sep : Str) :
    ∀ (s : Str) (k : Nat), splitSepGo sep s k ≠ [] := by
  intro s
  induction s with
  | nil => intro k; simp [splitSepGo]
  | cons c t ih =>
      intro k
      cases k with
      | succ k2 =>
          show splitSepGo sep t k2 ≠ []
          exact ih k2
      | zero =>
          unfold splitSepGo
          by_cases h : sep ≠ [] ∧ sep.isPrefixOf (c :: t)
          · simp [h]
          · rw [if_neg h]
            cases hr : splitSepGo sep t 0 <;> simp

theorem splitSepGo_skip (sep : Str) :
    ∀ (t : Str) (k : Nat), splitSepGo sep t k = splitSepGo sep (t.drop k) 0 := by
  intro t
  induction t with
  | nil => intro k; simp [splitSepGo]
  | cons c t ih =>
      intro k
      cases k with
      | zero => rfl
      | succ k2 =>
          show splitSepGo sep t k2 = _
          rw [ih k2]
          rfl

theorem intercalate_splitSepGo (sep : Str) (hsep : sep ≠ []) :
    ∀ (n : Nat) (s : Str), s.length ≤ n →
      List.intercalate sep (splitSepGo sep s 0) = s := by
  intro n
  induction n with
  | zero =>
      intro s hs
      have hnil : s = [] := List.length_eq_zero.mp (Nat.le_zero.mp hs)
      subst hnil
      simp [splitSepGo, List.intercalate]
  | succ n ih =>
      intro s hs
      cases s with
      | nil => simp [splitSepGo, List.intercalate]
      | cons c t =>
          by_cases h : sep.isPrefixOf (c :: t) = true
          · have hcond : sep ≠ [] ∧ sep.isPrefixOf (c :: t) := ⟨hsep, h⟩
            obtain ⟨u, hu⟩ := List.isPrefixOf_iff_prefix.mp h
            have hgo : splitSepGo sep (c :: t) 0 =
                [] :: splitSepGo sep t (sep.length - 1) := by
              simp only [splitSepGo]
              rw [if_pos hcond]
            have hdrop : t.drop (sep.length - 1) = u := by
              cases sep with
              | nil => exact absurd rfl hsep
              | cons d stl =>
                  injection hu with hu1 hu2
                  rw [← hu2]
                  simp [List.drop_left]
            have hlen : u.length ≤ n := by
              have h1 := congrArg List.length hu
              have h2 : sep.length ≥ 1 := by
                cases sep with
                | nil => exact absurd rfl hsep
                | cons d stl => simp
              simp [List.length_append] at h1 hs
              omega
            rw [hgo, splitSepGo_skip, hdrop,
              intercalate_cons_of_ne_nil sep [] _ (splitSepGo_ne_nil sep u 0),
              ih u hlen]
            simpa using hu
          · have hcond : ¬(sep ≠ [] ∧ sep.isPrefixOf (c :: t) = true) := fun hc =>
              absurd hc.2 h
            cases hr : splitSepGo sep t 0 with
            | nil => exact absurd hr (splitSepGo_ne_nil sep t 0)
            | cons s0 rest =>
                have hgo : splitSepGo sep (c :: t) 0 = (c :: s0) :: rest := by
                  simp only [splitSepGo]
                  rw [if_neg hcond, hr]
                have hit : List.intercalate sep (s0 :: rest) = t := by
                  rw [← hr]
                  exact ih t (by simpa using hs)
                rw [hgo, intercalate_cons_head, hit]

theorem intercalate_splitSep_self (sep : Str) (hsep : sep ≠ []) (s : Str) :
    List.intercalate sep (splitSep sep s) = s :=
  intercalate_splitSepGo sep hsep s.length s (Nat.le_refl _)

theorem map_replaceAll_id (pat tov : Str) (l : List Str)
    (h : ∀ seg ∈ l, containsSub pat seg = false) :
    l.map (replaceAll pat tov) = l := by
  induction l with
  | nil => rfl
  | cons x l2 ih =>
      simp only [List.map_cons]
      rw [replaceAll_not_contains pat tov x (h x (by simp)),
        ih (fun seg hs => h seg (by simp [hs]))]

theorem replaceAllGo_skip (pat tov : Str) :
    ∀ (t : Str) (k : Nat), replaceAllGo pat tov t k = replaceAllGo pat tov (t.drop k) 0 := by
  intro t
  induction t with
  | nil => intro k; cases k <;> rfl
  | cons c t ih =>
      intro k
      cases k with
      | zero => rfl
      | succ k2 =>
          show replaceAllGo pat tov t k2 = _
          rw [ih k2]
          rfl

theorem replaceAll_head_match (pat tov : Str) (hne : pat ≠ []) (s : Str)
    (h : pat.isPrefixOf s = true) :
    replaceAll pat tov s = tov ++ replaceAll pat tov (s.drop pat.length) := by
  cases s with
  | nil =>
      have hpat : pat = [] := by
        have hp := List.isPrefixOf_iff_prefix.mp h
        simpa using hp
      exact absurd hpat hne
  | cons c t =>
      show replaceAllGo pat tov (c :: t) 0 = _
      simp only [replaceAllGo]
      rw [if_pos ⟨hne, h⟩, replaceAllGo_skip]
      have hlen : (c :: t).drop pat.length = t.drop (pat.length - 1) := by
        cases pat with
        | nil => exact absurd rfl hne
        | cons p pt => simp
      rw [hlen]
      rfl

theorem replaceAll_head_miss (pat tov : Str) (c : Char) (t : Str)
    (h : ¬ pat.isPrefixOf (c :: t) = true) :
    replaceAll pat tov (c :: t) = c :: replaceAll pat tov t := by
  show replaceAllGo pat tov (c :: t) 0 = _
  simp only [replaceAllGo]
  rw [if_neg (fun hc => h hc.2)]
  rfl

/-- Claim C1 (amended — the PathPrefix part is as claimed; the PathSegment
part is what the code does instead): an Item (PathPrefix) rewrite fires only
when the text starts with the matcher text and then replaces exactly that
leading occurrence, on the value of a Plain frame and on both the value and
the cast source of a Cast frame.  A Path (PathSegment) rewrite with a
non-empty matcher text splits the text on the double colon, applies to every
segment — middle and later segments included — the left-to-right
all-occurrences substring replacement (a match at the head is replaced and
scanning resumes after it, a non-matching head character is kept), and
rejoins the segments; in particular the text is left unchanged whenever no
segment contains the matcher text as a substring. -/
theorem C1_amended :
    (∀ (pat tov : Str) (md : Option Str) (v : Str),
        pat.isPrefixOf v = true →
        ProcessingValue.replace (ProcessingValue.Entry md v)
            (ProcessingValueMatcher.Item pat) tov =
          ProcessingValue.Entry md (tov ++ v.drop pat.length)) ∧
    (∀ (pat tov : Str) (md : Option Str) (v : Str),
        pat.isPrefixOf v = false →
        ProcessingValue.replace (ProcessingValue.Entry md v)
            (ProcessingValueMatcher.Item pat) tov =
          ProcessingValue.Entry md v) ∧
    (∀ (pat tov fv v : Str) (fm md : Option Str),
        ProcessingValue.replace (ProcessingValue.Cast fm fv md v)
            (ProcessingValueMatcher.Item pat) tov =
          ProcessingValue.Cast fm
            (if pat.isPrefixOf fv then tov ++ fv.drop pat.length else fv) md
            (if pat.isPrefixOf v then tov ++ v.drop pat.length else v)) ∧
    (∀ (pat tov : Str) (md : Option Str) (v : Str), pat ≠ [] →
        ProcessingValue.replace (ProcessingValue.Entry md v)
            (ProcessingValueMatcher.Path pat) tov =
          ProcessingValue.Entry md
            (List.intercalate sepStr ((splitSep sepStr v).map (replaceAll pat tov)))) ∧
    (∀ (pat tov fv v : Str) (fm md : Option Str), pat ≠ [] →
        ProcessingValue.replace (ProcessingValue.Cast fm fv md v)
            (ProcessingValueMatcher.Path pat) tov =
          ProcessingValue.Cast fm fv md
            (List.intercalate sepStr ((splitSep sepStr v).map (replaceAll pat tov)))) ∧
    (∀ (pat tov : Str), pat ≠ [] → ∀ s : Str, pat.isPrefixOf s = true →
        replaceAll pat tov s = tov ++ replaceAll pat tov (s.drop pat.length)) ∧
    (∀ (pat tov : Str) (c : Char) (t : Str), ¬ pat.isPrefixOf (c :: t) = true →
        replaceAll pat tov (c :: t) = c :: replaceAll pat tov t) ∧
    (∀ (pat tov : Str) (md : Option Str) (v : Str),
        (∀ seg ∈ splitSep sepStr v, containsSub pat seg = false) →
        ProcessingValue.replace (ProcessingValue.Entry md v)
            (ProcessingValueMatcher.Path pat) tov =
          ProcessingValue.Entry md v) ∧
    (∀ (pat tov fv v : Str) (fm md : Option Str),
        (∀ seg ∈ splitSep sepStr v, containsSub pat seg = false) →
        ProcessingValue.replace (ProcessingValue.Cast fm fv md v)
            (ProcessingValueMatcher.Path pat) tov =
          ProcessingValue.Cast fm fv md v) := by
  have hsep : sepStr ≠ [] := by decide
  refine ⟨?_, ?_, ?_, ?_, ?_, ?_, ?_, ?_, ?_⟩
  · intro pat tov md v h
    simp [ProcessingValue.replace, h, replaceFirst_of_prefix pat tov v h]
  · intro pat tov md v h
    simp [ProcessingValue.replace, h]
  · intro pat tov fv v fm md
    by_cases h1 : pat.isPrefixOf fv = true <;>
      by_cases h2 : pat.isPrefixOf v = true <;>
        simp [ProcessingValue.replace, h1, h2,
          replaceFirst_of_prefix pat tov fv, replaceFirst_of_prefix pat tov v]
  · intro pat tov md v _
    rfl
  · intro pat tov fv v fm md _
    rfl
  · intro pat tov hne s h
    exact replaceAll_head_match pat tov hne s h
  · intro pat tov c t h
    exact replaceAll_head_miss pat tov c t h
  · intro pat tov md v h
    simp [ProcessingValue.replace, map_replaceAll_id pat tov _ h,
      intercalate_splitSep_self sepStr hsep v]
  · intro pat tov fv v fm md h
    simp [ProcessingValue.replace, map_replaceAll_id pat tov _ h,
      intercalate_splitSep_self sepStr hsep v]

def aabcStr : Str := "a::abc".toList

def xStr : Str := "X".toList

def aaXcStr : Str := "a::aXc".toList

/-- Counterexample to claim C1 as stated: the PathSegment matcher b rewrites
the value a::abc into a::aXc although no double-colon segment equals b — the
replacement hits a substring occurrence in the middle segment, contradicting
both the only-first-occurrence and the exactly-equal-segment condition. -/
theorem C1_counterexample :
    ProcessingValue.replace (ProcessingValue.Entry none aabcStr)
        (ProcessingValueMatcher.Path bval) xStr =
      ProcessingValue.Entry none aaXcStr ∧
    aaXcStr ≠ aabcStr ∧
    (splitSep sepStr aabcStr).all (fun seg => decide (seg ≠ bval)) = true := by
  refine ⟨by decide, by decide, by decide⟩

def abcStr : Str := "abc".toList

def zStr : Str := "z".toList

/-- Witness for C1: a PathPrefix rewrite at a matching prefix, the
segment-internal replacement equation at a matching head, and a PathSegment
rewrite whose pattern occurs in no segment. -/
theorem C1_witness :
    ProcessingValue.replace (ProcessingValue.Entry none abcStr)
        (ProcessingValueMatcher.Item aStr) xStr =
      ProcessingValue.Entry none (xStr ++ abcStr.drop aStr.length) ∧
    replaceAll aStr xStr abcStr = xStr ++ replaceAll aStr xStr (abcStr.drop aStr.length) ∧
    ProcessingValue.replace (ProcessingValue.Entry none aabcStr)
        (ProcessingValueMatcher.Path zStr) xStr =
      ProcessingValue.Entry none aabcStr :=
  ⟨C1_amended.1 aStr xStr none abcStr (by decide),
    C1_amended.2.2.2.2.2.1 aStr xStr (by decide) abcStr (by decide),
    C1_amended.2.2.2.2.2.2.2.1 zStr xStr none aabcStr (by decide)⟩

/-! ## processor.rs and audit.rs : keys, causes, the Errors section -/

/-- `ErrorLocationKey` (processor.rs lines 322-356): demangled symbol name
and source file path, the only identity used for correlation and grouping. -/
structure ErrorLocationKey where
  name : Option Str
  filename : Option Str
deriving DecidableEq

/-- Lookup in `Errors = HashMap<ErrorLocationKey, Vec<usize>>`, modelled as an
association list with structural key equality. -/
def errLookup (m : List (ErrorLocationKey × List Nat)) (k : ErrorLocationKey) :
    Option (List Nat) :=
  (m.find? (fun p => decide (p.1 = k))).map (fun p => p.2)

/-- Map update used by `create_error_section` (processor.rs lines 176-184):
insert an empty entry when the key is absent, then push the cause index. -/
def errAppend (m : List (ErrorLocationKey × List Nat)) (k : ErrorLocationKey)
    (i : Nat) : List (ErrorLocationKey × List Nat) :=
  match errLookup m k with
  | none => m ++ [(k, [i])]
  | some _ => m.map (fun p => if p.1 = k then (p.1, p.2 ++ [i]) else p)

/-- `OwoColorize::red` as used in processor.rs: foreground color code 31
around the text, then the default-foreground reset code. -/
def styleRed (s : Str) : Str := "\x1b[31m".toList ++ s ++ "\x1b[39m".toList

def natStr (n : Nat) : Str := (Nat.repr n).toList

/-- `AuditSectionEntry` in the final shape used by processor.rs (the
`separator` is written there as a character).  The source field `prefix` is
reserved here and is called `prefixv`. -/
structure AuditSectionEntry where
  prefixv : Option Str
  prefix_left : Option Str
  separator : Char
  prefix_right : Option Str
  text : Str
  suffix : Option Str
deriving DecidableEq

/-- The two section colors produced by the processor (`DynColors`). -/
inductive SectionColor
  | Red
  | Yellow
deriving DecidableEq

structure AuditSection where
  name : Str
  color : SectionColor
  entries : List AuditSectionEntry
deriving DecidableEq

/-- `AuditError` (audit.rs lines 137-149): the boxed error value is modelled
by its display text; the optional capture `Frame` is modelled by the location
key its resolution yields (frame resolution is an external backtrace
facility, and `create_error_section` only consumes the resulting key). -/
structure AuditError where
  error : Str
  location : Option ErrorLocationKey
deriving DecidableEq

/-- `Audit` (audit.rs): the cause list.  The raw stack capture and the custom
sections live outside the claims settled here; the resolved capture is passed
to `read_backtrace` directly. -/
structure Audit where
  errors : List AuditError
deriving DecidableEq

def Audit.new_empty : Audit := ⟨[]⟩

/-- `Audit::push_err` (audit.rs lines 73-76): `Vec::insert(0, ..)`, the new
cause goes to the front. -/
def Audit.push_err (a : Audit) (e : AuditError) : Audit := ⟨e :: a.errors⟩

def errorsName : Str := "Errors".toList

/-- `AnywaysAuditProcessor::create_error_section` (processor.rs lines
170-209).  The source fills the section entries and the location map in the
same loop; the entries do not depend on the map, so the two passes are
written separately. -/
def create_error_section (a : Audit) :
    AuditSection × List (ErrorLocationKey × List Nat) :=
  let n := a.errors.length
  let entries := a.errors.enum.map (fun p =>
    { prefixv := none
      prefix_left := some (styleRed ('E' :: natStr p.1))
      separator := if p.1 ≠ n - 1 then '↓' else '→'
      prefix_right := none
      text := p.2.error
      suffix := none : AuditSectionEntry })
  let errMap := a.errors.enum.foldl (fun m p =>
    match p.2.location with
    | some k => errAppend m k p.1
    | none => m) []
  (⟨errorsName, SectionColor.Red, entries⟩, errMap)

theorem foldl_push_err (causes : List AuditError) :
    ∀ a : Audit, (causes.foldl (fun a e => a.push_err e) a).errors =
      causes.reverse ++ a.errors := by
  induction causes with
  | nil => intro a; simp
  | cons e t ih =>
      intro a
      rw [List.foldl_cons, ih]
      simp [Audit.push_err]

/-- Claim C3: building the audit by repeated append (front insertion), the
Errors section holds one entry per cause, indexed from zero, where index 0 is
the most recently appended cause and the last index is the root; the label is
the red E-tag of the index, and only the last entry carries the terminal
arrow, all others the downward arrow. -/
theorem C3_errors_section (causes : List AuditError) :
    ((create_error_section
        (causes.foldl (fun a e => a.push_err e) Audit.new_empty)).1.entries.length =
      causes.length) ∧
    (∀ (i : Nat)
        (h1 : i < (create_error_section
          (causes.foldl (fun a e => a.push_err e) Audit.new_empty)).1.entries.length)
        (h2 : i < causes.reverse.length),
      ((create_error_section
          (causes.foldl (fun a e => a.push_err e) Audit.new_empty)).1.entries.get
            ⟨i, h1⟩).prefix_left = some (styleRed ('E' :: natStr i)) ∧
      ((create_error_section
          (causes.foldl (fun a e => a.push_err e) Audit.new_empty)).1.entries.get
            ⟨i, h1⟩).text = (causes.reverse.get ⟨i, h2⟩).error ∧
      ((create_error_section
          (causes.foldl (fun a e => a.push_err e) Audit.new_empty)).1.entries.get
            ⟨i, h1⟩).separator = (if i = causes.length - 1 then '→' else '↓')) := by
  have herr : (causes.foldl (fun a e => a.push_err e) Audit.new_empty).errors =
      causes.reverse := by
    rw [foldl_push_err]
    simp [Audit.new_empty]
  constructor
  · simp [create_error_section, herr]
  · intro i h1 h2
    have hget : (create_error_section
        (causes.foldl (fun a e => a.push_err e) Audit.new_empty)).1.entries.get ⟨i, h1⟩ =
        { prefixv := none
          prefix_left := some (styleRed ('E' :: natStr i))
          separator := if i ≠ causes.reverse.length - 1 then '↓' else '→'
          prefix_right := none
          text := (causes.reverse.get ⟨i, h2⟩).error
          suffix := none } := by
      simp [create_error_section, herr, List.get_eq_getElem, List.getElem_map,
        List.getElem_enum]
    rw [hget]
    refine ⟨rfl, rfl, ?_⟩
    by_cases hi : i = causes.length - 1
    · simp [hi]
    · have : ¬ i = causes.reverse.length - 1 := by simpa using hi
      simp [hi, this]

def fnfStr : Str := "file not found".toList

def initStr : Str := "initialization failed".toList

def errRoot : AuditError := ⟨ fnfStr, none ⟩

def errWrap : AuditError := ⟨ initStr, none ⟩

def demoCauses : List AuditError := [errRoot, errWrap]

/-- Witness for C3 at the two-cause audit of the spec example. -/
theorem C3_witness :
    ((create_error_section
        (demoCauses.foldl (fun a e => a.push_err e) Audit.new_empty)).1.entries.length =
      demoCauses.length) ∧
    (((create_error_section
        (demoCauses.foldl (fun a e => a.push_err e) Audit.new_empty)).1.entries.get
          ⟨1, by decide⟩).prefix_left = some (styleRed ('E' :: natStr 1)) ∧
      ((create_error_section
        (demoCauses.foldl (fun a e => a.push_err e) Audit.new_empty)).1.entries.get
          ⟨1, by decide⟩).text = (demoCauses.reverse.get ⟨1, by decide⟩).error ∧
      ((create_error_section
        (demoCauses.foldl (fun a e => a.push_err e) Audit.new_empty)).1.entries.get
          ⟨1, by decide⟩).separator = (if 1 = demoCauses.length - 1 then '→' else '↓')) :=
  ⟨(C3_errors_section demoCauses).1,
    (C3_errors_section demoCauses).2 1 (by decide) (by decide)⟩

/-! ## processor.rs : reading the backtrace into file groups -/

/-- A resolved backtrace symbol (external capture facility): optional
demangled name, source file, line and column. -/
structure BSymbol where
  name : Option Str
  filename : Option Str
  lineno : Option Nat
  colno : Option Nat
deriving DecidableEq

/-- `ErrorLocationKey::from(&BacktraceSymbol)` (processor.rs lines 349-356). -/
def symKey (s : BSymbol) : ErrorLocationKey := ⟨s.name, s.filename⟩

/-- `ProcessingEntry` (processor/entry.rs lines 6-13). -/
structure ProcessingEntry where
  line : Option Nat
  character : Option Nat
  value : ProcessingValue
  errors : Option Str
  collapsable : Bool
deriving DecidableEq

def spaceStr : Str := " ".toList

/-- `ProcessingEntry::new` (processor/entry.rs lines 198-220). -/
def ProcessingEntry.new (symbol : BSymbol)
    (errors : List (ErrorLocationKey × List Nat)) : ProcessingEntry :=
  { line := symbol.lineno
    character := symbol.colno
    value := match symbol.name with
      | some n => acquire_value (strip_hash n)
      | none => ProcessingValue.Unknown
    errors := (errLookup errors (symKey symbol)).map
      (fun ids => List.intercalate spaceStr (ids.map (fun id => styleRed ('E' :: natStr id))))
    collapsable := false }

/-- `ReporterFile` (processor/file.rs).  `ReporterFile::new` additionally
shortens the stored path against the current working directory and strips a
`/rustc/../library` prefix; both transformations read the process environment
and are modelled here with the two feature flags off, which leaves the path
unchanged (the grouping comparisons in `read_backtrace` use the raw
`location.filename` in any case). -/
structure ReporterFile where
  path : Option Str
  entries : List ProcessingEntry
deriving DecidableEq

/-- `AnywaysAuditProcessor::read_backtrace` (processor.rs lines 288-316):
walk the resolved symbols of all frames; whenever the source-file identity
changes, flush the accumulated entries as a `ReporterFile` under the previous
identity; return the flushed files.  The accumulator still holding the final
contiguous run when the loop ends is not flushed, exactly as in the source. -/
def read_backtrace (errors : List (ErrorLocationKey × List Nat))
    (frames : List (List BSymbol)) : List ReporterFile :=
  let step := fun (st : List ReporterFile × List ProcessingEntry × Option Str)
      (symbol : BSymbol) =>
    let files := st.1
    let entries := st.2.1
    let old_path := st.2.2
    let loc := symKey symbol
    let st2 :=
      if old_path ≠ loc.filename then
        (files ++ [ReporterFile.mk old_path entries], ([] : List ProcessingEntry),
          loc.filename)
      else (files, entries, old_path)
    (st2.1, st2.2.1 ++ [ProcessingEntry.new symbol errors], st2.2.2)
  (frames.foldl (fun st syms => syms.foldl step st) ([], [], none)).1

def fileA : Str := "a.rs".toList

def fileB : Str := "b.rs".toList

def symA : BSymbol := ⟨ none, some fileA, none, none ⟩

def symB : BSymbol := ⟨ none, some fileB, none, none ⟩

def demoFrames : List (List BSymbol) := [[symA], [symB]]

/-- Claim C2, evaluated on the failing input: a resolved capture with two
frames in distinct files yields only the group flushed at the identity
change (plus a leading empty unknown-identity group); the frame of the final
contiguous run, file b.rs, is assigned to no group, so the frames are not
partitioned. -/
theorem C2_code_eval :
    read_backtrace [] demoFrames =
      [ReporterFile.mk none [],
        ReporterFile.mk (some fileA) [ProcessingEntry.new symA []]] ∧
    (read_backtrace [] demoFrames).foldr (fun f n => f.entries.length + n) 0 = 1 ∧
    demoFrames.foldr (fun l n => l.length + n) 0 = 2 := by
  refine ⟨by decide, by decide, by decide⟩

/-! ## processor.rs : filtering, collapse marking, replacing and merging -/

/-- The per-entry pipeline inside `create_backtrace_section` (processor.rs
lines 216-239): drop the entry when any filter matcher matches; otherwise set
the collapsable flag when some collapse matcher matches (the source breaks at
the first match, which yields the same flag), then apply every replace pair
in order, the replacement text first wrapped in the display style. -/
def processOne (filt coll : List ProcessingValueMatcher)
    (reps : List (ProcessingValueMatcher × Str)) (style : Str → Str)
    (e : ProcessingEntry) : Option ProcessingEntry :=
  if filt.any (fun m => e.value.matches m) then none
  else
    let e1 := if coll.any (fun m => e.value.matches m) then
        { e with collapsable := true } else e
    some { e1 with value := reps.foldl (fun v p => v.replace p.1 (style p.2)) e1.value }

/-- The entries of one file group that survive the per-entry pipeline. -/
def surviving (filt coll : List ProcessingValueMatcher)
    (reps : List (ProcessingValueMatcher × Str)) (style : Str → Str)
    (f : ReporterFile) : List ProcessingEntry :=
  f.entries.filterMap (processOne filt coll reps style)

/-- The push-or-merge of `create_backtrace_section` (processor.rs lines
247-258): append the surviving entries to the last kept file when its path
equals the new path or all surviving entries are collapsable (the merged
file keeps the path of the last kept file), else push a new file. -/
def pushFile (files : List ReporterFile) (path : Option Str)
    (entries : List ProcessingEntry) : List ReporterFile :=
  match files.getLast? with
  | some last =>
      if last.path = path ∨ entries.all (fun e => e.collapsable) = true then
        files.dropLast ++ [ReporterFile.mk last.path (last.entries ++ entries)]
      else files ++ [ReporterFile.mk path entries]
  | none => files ++ [ReporterFile.mk path entries]

/-- One iteration of the group walk (processor.rs lines 214-259): a group
left empty by the filter is dropped, anything else is pushed or merged. -/
def mergeStep (filt coll : List ProcessingValueMatcher)
    (reps : List (ProcessingValueMatcher × Str)) (style : Str → Str)
    (files : List ReporterFile) (file : ReporterFile) : List ReporterFile :=
  if (surviving filt coll reps style file).isEmpty then files
  else pushFile files file.path (surviving filt coll reps style file)

/-- The group walk of `create_backtrace_section` over all file groups. -/
def filterMergeFiles (filt coll : List ProcessingValueMatcher)
    (reps : List (ProcessingValueMatcher × Str)) (style : Str → Str)
    (input : List ReporterFile) : List ReporterFile :=
  input.foldl (mergeStep filt coll reps style) []

theorem pushFile_nil (path : Option Str) (entries : List ProcessingEntry) :
    pushFile [] path entries = [ReporterFile.mk path entries] := rfl

theorem pushFile_concat (files : List ReporterFile) (last : ReporterFile)
    (path : Option Str) (entries : List ProcessingEntry) :
    pushFile (files ++ [last]) path entries =
      if last.path = path ∨ entries.all (fun e => e.collapsable) = true then
        files ++ [ReporterFile.mk last.path (last.entries ++ entries)]
      else (files ++ [last]) ++ [ReporterFile.mk path entries] := by
  unfold pushFile
  rw [List.getLast?_concat, List.dropLast_concat]

theorem mergeStep_preserves (filt coll : List ProcessingValueMatcher)
    (reps : List (ProcessingValueMatcher × Str)) (style : Str → Str)
    (acc : List ReporterFile) (file : ReporterFile) (x : List ProcessingEntry)
    (h : ∃ og ∈ acc, x <:+: og.entries) :
    ∃ og ∈ mergeStep filt coll reps style acc file, x <:+: og.entries := by
  unfold mergeStep
  by_cases he : (surviving filt coll reps style file).isEmpty = true
  · rw [if_pos he]
    exact h
  · rw [if_neg he]
    rcases acc.eq_nil_or_concat with rfl | ⟨l2, last, rfl⟩
    · obtain ⟨og, hog, _⟩ := h
      exact absurd hog (by simp)
    · simp only [List.concat_eq_append] at h ⊢
      rw [pushFile_concat]
      obtain ⟨og, hog, hx⟩ := h
      by_cases hc : last.path = file.path ∨
          (surviving filt coll reps style file).all (fun e => e.collapsable) = true
      · rw [if_pos hc]
        rcases List.mem_append.mp hog with hog2 | hog2
        · exact ⟨og, List.mem_append_left _ hog2, hx⟩
        · have hol : og = last := by simpa using hog2
          subst hol
          refine ⟨ReporterFile.mk og.path
            (og.entries ++ surviving filt coll reps style file), by simp, ?_⟩
          exact hx.trans (List.prefix_append _ _).isInfix
      · rw [if_neg hc]
        exact ⟨og, List.mem_append_left _ hog, hx⟩

theorem foldl_mergeStep_preserves (filt coll : List ProcessingValueMatcher)
    (reps : List (ProcessingValueMatcher × Str)) (style : Str → Str)
    (input : List ReporterFile) :
    ∀ (acc : List ReporterFile) (x : List ProcessingEntry),
      (∃ og ∈ acc, x <:+: og.entries) →
      ∃ og ∈ input.foldl (mergeStep filt coll reps style) acc, x <:+: og.entries := by
  induction input with
  | nil => intro acc x h; simpa using h
  | cons file rest ih =>
      intro acc x h
      rw [List.foldl_cons]
      exact ih _ x (mergeStep_preserves filt coll reps style acc file x h)

theorem mergeStep_lands (filt coll : List ProcessingValueMatcher)
    (reps : List (ProcessingValueMatcher × Str)) (style : Str → Str)
    (acc : List ReporterFile) (file : ReporterFile)
    (h : surviving filt coll reps style file ≠ []) :
    ∃ og ∈ mergeStep filt coll reps style acc file,
      surviving filt coll reps style file <:+: og.entries := by
  unfold mergeStep
  have he : ¬ (surviving filt coll reps style file).isEmpty = true := fun hsv =>
    h (List.isEmpty_iff.mp hsv)
  rw [if_neg he]
  rcases acc.eq_nil_or_concat with rfl | ⟨l2, last, rfl⟩
  · rw [pushFile_nil]
    exact ⟨ReporterFile.mk file.path (surviving filt coll reps style file), by simp,
      List.infix_rfl⟩
  · simp only [List.concat_eq_append]
    rw [pushFile_concat]
    by_cases hc : last.path = file.path ∨
        (surviving filt coll reps style file).all (fun e => e.collapsable) = true
    · rw [if_pos hc]
      refine ⟨ReporterFile.mk last.path
        (last.entries ++ surviving filt coll reps style file), by simp, ?_⟩
      exact (List.suffix_append _ _).isInfix
    · rw [if_neg hc]
      exact ⟨ReporterFile.mk file.path (surviving filt coll reps style file), by simp,
        List.infix_rfl⟩

/-- Claim C5: walking the file groups in order, a group with surviving
entries is merged into the immediately preceding kept group exactly when its
file identity equals that group's identity or every surviving entry is
collapsable (first conjunct: the walk extended by one group); and the
surviving entries of one group always land, contiguously, inside a single
output group — in particular adjacent same-identity frames, which share an
input group, end up in the same output group whatever their flags (second
conjunct). -/
theorem C5_grouping :
    (∀ (filt coll : List ProcessingValueMatcher)
        (reps : List (ProcessingValueMatcher × Str)) (style : Str → Str)
        (input : List ReporterFile) (g last : ReporterFile),
        (filterMergeFiles filt coll reps style input).getLast? = some last →
        surviving filt coll reps style g ≠ [] →
        filterMergeFiles filt coll reps style (input ++ [g]) =
          (if last.path = g.path ∨
              (surviving filt coll reps style g).all (fun e => e.collapsable) = true then
            (filterMergeFiles filt coll reps style input).dropLast ++
              [ReporterFile.mk last.path
                (last.entries ++ surviving filt coll reps style g)]
          else
            filterMergeFiles filt coll reps style input ++
              [ReporterFile.mk g.path (surviving filt coll reps style g)])) ∧
    (∀ (filt coll : List ProcessingValueMatcher)
        (reps : List (ProcessingValueMatcher × Str)) (style : Str → Str)
        (input : List ReporterFile) (g : ReporterFile), g ∈ input →
        surviving filt coll reps style g ≠ [] →
        ∃ og ∈ filterMergeFiles filt coll reps style input,
          surviving filt coll reps style g <:+: og.entries) := by
  constructor
  · intro filt coll reps style input g last hlast hne
    have hstep : filterMergeFiles filt coll reps style (input ++ [g]) =
        mergeStep filt coll reps style (filterMergeFiles filt coll reps style input) g := by
      unfold filterMergeFiles
      rw [List.foldl_append, List.foldl_cons, List.foldl_nil]
    rw [hstep]
    unfold mergeStep
    have he : ¬ (surviving filt coll reps style g).isEmpty = true := fun hsv =>
      hne (List.isEmpty_iff.mp hsv)
    rw [if_neg he]
    rcases (filterMergeFiles filt coll reps style input).eq_nil_or_concat with
      hnil | ⟨l2, last2, hdec⟩
    · rw [hnil] at hlast
      exact absurd hlast (by simp)
    · simp only [List.concat_eq_append] at hdec
      rw [hdec] at hlast
      rw [List.getLast?_concat] at hlast
      injection hlast with hlast2
      subst hlast2
      rw [hdec, pushFile_concat, List.dropLast_concat]
  · intro filt coll reps style input
    suffices hgen : ∀ (inp acc : List ReporterFile) (g : ReporterFile), g ∈ inp →
        surviving filt coll reps style g ≠ [] →
        ∃ og ∈ inp.foldl (mergeStep filt coll reps style) acc,
          surviving filt coll reps style g <:+: og.entries by
      intro g hg hne
      exact hgen input [] g hg hne
    intro inp
    induction inp with
    | nil => intro acc g hg; exact fun _ => absurd hg (by simp)
    | cons file rest ih =>
        intro acc g hg hne
        rw [List.foldl_cons]
        rcases List.mem_cons.mp hg with rfl | hg2
        · exact foldl_mergeStep_preserves filt coll reps style rest _ _
            (mergeStep_lands filt coll reps style acc g hne)
        · exact ih _ g hg2 hne

def idStyle : Str → Str := fun s => s

def pe1 : ProcessingEntry := ⟨ none, none, ProcessingValue.Unknown, none, false ⟩

def wfile : ReporterFile := ⟨ some fileA, [pe1] ⟩

/-- Witness for C5 at an empty configuration and two groups with the same
path: the second group is merged into the first. -/
theorem C5_witness :
    (filterMergeFiles [] [] [] idStyle ([wfile] ++ [wfile]) =
      (if wfile.path = wfile.path ∨
          (surviving [] [] [] idStyle wfile).all (fun e => e.collapsable) = true then
        (filterMergeFiles [] [] [] idStyle [wfile]).dropLast ++
          [ReporterFile.mk wfile.path
            (wfile.entries ++ surviving [] [] [] idStyle wfile)]
      else
        filterMergeFiles [] [] [] idStyle [wfile] ++
          [ReporterFile.mk wfile.path (surviving [] [] [] idStyle wfile)])) ∧
    (∃ og ∈ filterMergeFiles [] [] [] idStyle [wfile],
      surviving [] [] [] idStyle wfile <:+: og.entries) :=
  ⟨C5_grouping.1 [] [] [] idStyle [wfile] wfile wfile (by decide) (by decide),
    C5_grouping.2 [] [] [] idStyle [wfile] wfile (by simp) (by decide)⟩
